import Mathlib

/-!
# Verification of the pkggodev extraction & normalization pipeline

Shallow embedding of the pkggodev Go client (files `client.go` — the legacy
variant — and the unnamed current variant).  The embedding models:

* the Go string primitives the code uses (`strings.Split` on a single space,
  `strings.Contains`, `strings.TrimSpace` on the ASCII whitespace set,
  `strings.TrimSuffix`, `strconv.ParseInt`/`Atoi`),
* the Gregorian calendar arithmetic behind `time.Now`, `time.Add`,
  `time.AddDate` and `time.Format("2006-01-02")`; the current instant is a
  parameter (`now`, nanoseconds since the Unix epoch, UTC — the instant
  `time.Now` reads); the `int64` range check of `strconv.ParseInt` and the
  two's-complement wrap of Go's `time.Duration` product and of the
  `-int(quantity)` day deltas are modelled exactly (`int64Wrap`), while the
  calendar-day subtraction of `time.AddDate` is modelled as exact day
  arithmetic, which agrees with Go whenever the result stays inside the
  `time` package's representable absolute range (beyond it Go wraps through
  an internal `uint64` second pipeline that is not modelled; the theorems
  assert subtracted dates only within a conservative envelope),
* `normalizeTime`, including the `time.Parse("Jan 2, 2006", ...)` layout
  (case-insensitive month-name lookup, 1–2 digit day, exact literals, 4-digit
  year, day-of-month range check),
* the `Versions` sibling-walk accumulator over node class markers,
* both `Search` pagination loops (the current one with the 10-page cap and the
  legacy one with the `results-total` header handler),
* `DescribePackage`'s title-heading scan and composite-error return discipline,
* `normalizeRepoURL`, `identifyGitHost` (`net/url` host extraction for the
  scheme-qualified URLs the claims exercise) and `fetchDescription`
  (provider-specific extraction is an external HTTP effect and is a parameter).

Go slice indexing that may be out of range is modelled by an explicit
`GoPanic` outcome, never by a default value.
-/

namespace Pkggodev

/-- Go `panic`: the only one the code can raise is a slice index out of range. -/
inductive GoPanic where
  | indexOutOfRange : GoPanic
deriving DecidableEq, Repr

/-! ## Go string primitives (over `List Char`) -/

/-- The ASCII white-space set of Go `strings.TrimSpace` / `unicode.IsSpace`
(space, tab, newline, vertical tab, form feed, carriage return; the non-ASCII
Unicode spaces do not occur in any claim and are not modelled). -/
def goIsSpace (c : Char) : Bool :=
  c = ' ' || c = '\t' || c = '\n' || c = '\x0b' || c = '\x0c' || c = '\r'

/-- Go `strings.TrimSpace`. -/
def goTrimList (cs : List Char) : List Char :=
  ((cs.dropWhile goIsSpace).reverse.dropWhile goIsSpace).reverse

/-- Go `strings.TrimSpace` on `String`s. -/
def goTrim (s : String) : String := (goTrimList s.data).asString

/-- Go `strings.Split(s, " ")`: split around every single space, keeping empty
fields; the result is never the empty list. -/
def goSplitSp : List Char → List (List Char)
  | [] => [[]]
  | c :: rest =>
    if c = ' ' then [] :: goSplitSp rest
    else
      match goSplitSp rest with
      | [] => [[c]]
      | g :: gs => (c :: g) :: gs

/-- Does the character list start with the given pattern? -/
def startsWithList : List Char → List Char → Bool
  | [], _ => true
  | _ :: _, [] => false
  | p :: ps, c :: cs => p = c && startsWithList ps cs

/-- Go `strings.Contains` (non-empty needle): the needle occurs as a
contiguous sublist. -/
def containsList (needle : List Char) : List Char → Bool
  | [] => startsWithList needle []
  | c :: cs => startsWithList needle (c :: cs) || containsList needle cs

/-- Go `strings.HasPrefix` on `String`s. -/
def goHasPrefix (p s : String) : Bool := startsWithList p.data s.data

/-- Go `strings.HasSuffix` on `String`s. -/
def goHasSuffix (p s : String) : Bool :=
  startsWithList p.data.reverse s.data.reverse

/-- Go `strings.Contains` on `String`s. -/
def goContains (s needle : String) : Bool := containsList needle.data s.data

/-- Go `strings.TrimSuffix(s, "s")`: drop one trailing `'s'` when present. -/
def trimOneS (cs : List Char) : List Char :=
  if cs.getLast? = some 's' then cs.dropLast else cs

/-- Numeric value of an ASCII digit. -/
def digitVal (c : Char) : Nat := c.toNat - 48

/-- ASCII digit test (`'0'..'9'`), as in Go's parsers. -/
def isDigitChar (c : Char) : Bool := 48 ≤ c.toNat && c.toNat ≤ 57

/-- Value of a digit string, most significant digit first. -/
def digitsToNat (cs : List Char) : Nat :=
  cs.foldl (fun acc c => 10 * acc + digitVal c) 0

/-- The digit part of Go's integer parsers: at least one character, all
ASCII digits. -/
def goParseDigits (ds : List Char) : Option Nat :=
  if ds ≠ [] && ds.all isDigitChar then some (digitsToNat ds) else none

/-- Go `strconv.ParseInt(s, 10, 64)`: optional sign, at least one digit, all
digits, result within the `int64` range. -/
def goParseInt64 (cs : List Char) : Option Int :=
  match cs with
  | '+' :: rest =>
      match goParseDigits rest with
      | some n => if (n : Int) ≤ 2 ^ 63 - 1 then some (n : Int) else none
      | none => none
  | '-' :: rest =>
      match goParseDigits rest with
      | some n => if (n : Int) ≤ 2 ^ 63 then some (-(n : Int)) else none
      | none => none
  | _ =>
      match goParseDigits cs with
      | some n => if (n : Int) ≤ 2 ^ 63 - 1 then some (n : Int) else none
      | none => none

/-- Go `strconv.Atoi` (on a 64-bit platform, identical range to `ParseInt`). -/
def goAtoi (cs : List Char) : Option Int := goParseInt64 cs

/-- Go `strings.ReplaceAll(s, ",", "")`. -/
def stripCommas (cs : List Char) : List Char := cs.filter (fun c => c ≠ ',')

/-- Go `strings.Split` with an arbitrary non-empty separator, fuel-driven
(the fuel, one more than the input length, always suffices). -/
def splitOnFuel (sep : List Char) : Nat → List Char → List (List Char)
  | 0, _ => [[]]
  | _ + 1, [] => [[]]
  | fuel + 1, c :: cs =>
    if startsWithList sep (c :: cs) then
      [] :: splitOnFuel sep fuel (List.drop (sep.length - 1) cs)
    else
      match splitOnFuel sep fuel cs with
      | [] => [[c]]
      | g :: gs => (c :: g) :: gs

/-- Go `strings.Split(s, sep)` for a non-empty separator. -/
def splitOnList (sep cs : List Char) : List (List Char) :=
  splitOnFuel sep (cs.length + 1) cs

/-! ## Calendar arithmetic (proleptic Gregorian, as in Go's `time` package) -/

/-- A civil date: year (may be negative), month `1..12`, day `1..31`. -/
abbrev CivilDate := Int × Int × Int

/-- Civil date of a day count (days since 1970-01-01); Hinnant's algorithm,
the same proleptic Gregorian calendar Go's `time` package computes with. -/
def civilFromDays (z0 : Int) : CivilDate :=
  let z := z0 + 719468
  let era := z.fdiv 146097
  let doe := z - era * 146097
  let yoe := (doe - doe / 1460 + doe / 36524 - doe / 146096) / 365
  let y := yoe + era * 400
  let doy := doe - (365 * yoe + yoe / 4 - yoe / 100)
  let mp := (5 * doy + 2) / 153
  let d := doy - (153 * mp + 2) / 5 + 1
  let m := mp + (if mp < 10 then 3 else -9)
  (if m ≤ 2 then y + 1 else y, m, d)

/-- Decimal digit characters of a natural number, most significant first
(fuel-driven so that it computes by reduction). -/
def natDigitsAux : Nat → Nat → List Char → List Char
  | 0, _, acc => acc
  | fuel + 1, n, acc =>
    let d := Char.ofNat (48 + n % 10)
    if n < 10 then d :: acc else natDigitsAux fuel (n / 10) (d :: acc)

/-- Decimal digit characters of a natural number. -/
def natDigits (n : Nat) : List Char := natDigitsAux (n + 1) n []

/-- Zero-pad a natural number to the given width, as Go's `appendInt`. -/
def padNat (width n : Nat) : List Char :=
  let ds := natDigits n
  List.replicate (width - ds.length) '0' ++ ds

/-- Go's `appendInt(b, x, width)`: for negative `x`, a minus sign followed by
the zero-padded absolute value. -/
def padInt (width : Nat) (x : Int) : List Char :=
  if x < 0 then '-' :: padNat width (-x).toNat else padNat width x.toNat

/-- Go `time.Format("2006-01-02")` of a civil date. -/
def fmtDate : CivilDate → String
  | (y, m, d) => (padInt 4 y ++ '-' :: padInt 2 m ++ '-' :: padInt 2 d).asString

/-! ## The `time.Parse("Jan 2, 2006", s)` layout -/

/-- Go's case-insensitive character match in month-name lookup: equal, or
equal after OR-ing in `0x20` with the result a lower-case ASCII letter. -/
def charMatch (c1 c2 : Char) : Bool :=
  c1 = c2 ||
    (let l1 := c1.toNat ||| 0x20
     let l2 := c2.toNat ||| 0x20
     l1 = l2 && 97 ≤ l1 && l1 ≤ 122)

/-- Match a fixed name against the front of the input, case-insensitively;
returns the remaining input. -/
def matchName : List Char → List Char → Option (List Char)
  | [], rest => some rest
  | _ :: _, [] => none
  | n :: ns, c :: cs => if charMatch n c then matchName ns cs else none

/-- The abbreviated month names of Go's `time` package, in order. -/
def shortMonthNames : List (List Char) :=
  ["Jan", "Feb", "Mar", "Apr", "May", "Jun",
   "Jul", "Aug", "Sep", "Oct", "Nov", "Dec"].map String.data

/-- First-match lookup over a table of numbered names. -/
def lookupIn : List (Int × List Char) → List Char → Option (Int × List Char)
  | [], _ => none
  | (i, name) :: rest, cs =>
    match matchName name cs with
    | some r => some (i, r)
    | none => lookupIn rest cs

/-- The numbered month table, in the order Go's `lookup` scans it. -/
def monthTable : List (Int × List Char) :=
  (shortMonthNames.enum.map fun (i, name) => ((i : Int) + 1, name))

/-- Go's `lookup(shortMonthNames, value)`: first name (in order) matching a
prefix of the input; yields the month number `1..12` and the rest. -/
def lookupMonth (cs : List Char) : Option (Int × List Char) :=
  lookupIn monthTable cs

/-- Go's `getnum(s, fixed=false)` for layout `"2"`: one or two digits. -/
def getnum2 (cs : List Char) : Option (Int × List Char) :=
  match cs with
  | c1 :: c2 :: rest =>
      if isDigitChar c1 then
        if isDigitChar c2 then some ((digitVal c1 * 10 + digitVal c2 : Nat), rest)
        else some ((digitVal c1 : Nat), c2 :: rest)
      else none
  | [c1] => if isDigitChar c1 then some ((digitVal c1 : Nat), []) else none
  | [] => none

/-- Leap-year test of Go's `time` package (proleptic Gregorian). -/
def isLeap (y : Int) : Bool := y % 4 = 0 && (y % 100 ≠ 0 || y % 400 = 0)

/-- Days in a month, as Go's `daysIn`. -/
def daysIn (m y : Int) : Int :=
  if m = 2 then (if isLeap y then 29 else 28)
  else if m = 4 || m = 6 || m = 9 || m = 11 then 30
  else 31

/-- Go `time.Parse("Jan 2, 2006", s)`: abbreviated month name
(case-insensitive), literal space, 1–2 digit day, literal `", "`, exactly four
digit year, end of input, then the day-of-month range check. -/
def parseMonthDate (cs : List Char) : Option CivilDate :=
  match lookupMonth cs with
  | none => none
  | some (m, rest1) =>
    match rest1 with
    | ' ' :: rest2 =>
      match getnum2 rest2 with
      | none => none
      | some (d, rest3) =>
        match rest3 with
        | ',' :: ' ' :: y1 :: y2 :: y3 :: y4 :: rest4 =>
          if rest4 = [] && [y1, y2, y3, y4].all isDigitChar then
            let y : Int := (digitsToNat [y1, y2, y3, y4] : Nat)
            if 1 ≤ d && d ≤ daysIn m y then some (y, m, d) else none
          else none
        | _ => none
    | _ => none

/-! ## `normalizeTime` -/

/-- Failure of `normalizeTime`: an ordinary `error` return with its kind, or a
Go runtime panic. -/
inductive NTErr where
  | badQuantity : NTErr
  | unknownUnit : NTErr
  | unparseableDate : NTErr
  | panic (p : GoPanic) : NTErr
deriving DecidableEq, Repr

/-- Two's-complement wrap into the signed 64-bit range: the semantics of
Go `int64` (and `time.Duration`) arithmetic. -/
def int64Wrap (x : Int) : Int := (x + 2 ^ 63) % 2 ^ 64 - 2 ^ 63

/-- Nanoseconds per day. -/
def nsPerDay : Int := 86400000000000

/-- Day count (days since 1970-01-01) of an instant given in nanoseconds
since the Unix epoch: the date `time.Format` renders for it in UTC. -/
def dayOfNs (t : Int) : Int := t.fdiv nsPerDay

/-- `normalizeTime` from the source, with the current instant `now`
(nanoseconds since the Unix epoch, UTC — the wall clock `time.Now` reads) as
a parameter:
`"today"` formats `time.Now()`; otherwise an input containing the substring
`"ago"` is split on spaces, token 0 is parsed as a signed integer (error on
failure), token 1 (a panic if absent) minus one trailing `'s'` selects the
unit, and any other unit is an error; every other input goes through
`time.Parse("Jan 2, 2006", ...)`. Success formats as `2006-01-02`.
The `hour` unit computes `now.Add(-quantityDur * time.Hour)`: the `int64`
product wraps, which `int64Wrap` models exactly (`-q * Hour` equals the
wrap of `-(q * 3600000000000)` nanoseconds, and for a contemporary `now`
the `Add` is a lossless nanosecond addition).  The `day` and `week` units
compute `now.AddDate(0, 0, -int(quantity))` (resp. `-7*int(quantity)`): the
day delta is wrapped to `int64` exactly as Go evaluates it, and the calendar
subtraction itself is modelled as exact day arithmetic, which agrees with Go
whenever the resulting instant stays inside the `time` package's
representable absolute range (Go's internal `uint64` second pipeline wraps
beyond it; the claim theorem asserts the subtracted date only within the
conservative envelope `|quantity| ≤ 2^40` days). -/
def normalizeTime (now : Int) (s : String) : Except NTErr String :=
  if s = "today" then .ok (fmtDate (civilFromDays (dayOfNs now)))
  else if containsList ['a', 'g', 'o'] s.data then
    match goSplitSp s.data with
    | [] => .error (.panic .indexOutOfRange)
    | quantityStr :: rest =>
      match goParseInt64 quantityStr with
      | none => .error .badQuantity
      | some q =>
        match rest with
        | [] => .error (.panic .indexOutOfRange)
        | u :: _ =>
          let unit := trimOneS u
          if unit = ['h', 'o', 'u', 'r'] then
            .ok (fmtDate (civilFromDays
              (dayOfNs (now + int64Wrap (-(q * 3600000000000))))))
          else if unit = ['d', 'a', 'y'] then
            .ok (fmtDate (civilFromDays (dayOfNs now + int64Wrap (-q))))
          else if unit = ['w', 'e', 'e', 'k'] then
            .ok (fmtDate (civilFromDays (dayOfNs now + int64Wrap (-(7 * q)))))
          else .error .unknownUnit
  else
    match parseMonthDate s.data with
    | some date => .ok (fmtDate date)
    | none => .error .unparseableDate

/-! ## The `Versions` grouped-record accumulator -/

/-- The `Version` record of the source. -/
structure Version where
  majorVersion : String := ""
  fullVersion : String := ""
  date : String := ""
deriving DecidableEq, Repr

/-- A sibling node of the `.Versions-list` walk: its class memberships (the
four `HasClass` tests of the source are independent, so a node carries a flag
for each) and the three text projections the handlers read: `s.Text()`, the
`.js-versionLink` descendant text, and the `.Version-summary` text after its
`span` children are removed. -/
structure VNode where
  isMajor : Bool := false
  isTag : Bool := false
  isCommitTime : Bool := false
  isDetails : Bool := false
  text : String := ""
  linkText : String := ""
  summaryText : String := ""
deriving DecidableEq, Repr

/-- The accumulator state of the `Versions` walk: the in-progress record, the
sticky current major version, the emitted records and the accumulated
errors. -/
structure VState where
  cur : Version := {}
  curMajor : String := ""
  out : List Version := []
  errs : List NTErr := []
deriving DecidableEq, Repr

/-- The `Version-details` branch of the walk (runs after the
`Version-commitTime` branch on the same node unless that branch returned
early): on normalization failure the error is only logged, never
accumulated. -/
def detailsBranch (now : Int) (st : VState) (n : VNode) : VState :=
  if n.isDetails then
    match normalizeTime now (goTrim n.summaryText) with
    | .error _ => st
    | .ok t =>
        { st with
          out := st.out ++ [{ st.cur with date := t }]
          cur := {} }
  else st

/-- The `Version-major` branch: a non-blank trimmed label text updates the
sticky major version, and the in-progress record's `majorVersion` is always
stamped from the (possibly unchanged) sticky value. -/
def majorBranch (st : VState) (n : VNode) : VState :=
  if n.isMajor then
    let mv := goTrim n.text
    let cmv := if mv ≠ "" then mv else st.curMajor
    { st with curMajor := cmv, cur := { st.cur with majorVersion := cmv } }
  else st

/-- The `Version-tag` branch: the nested link text becomes `fullVersion`. -/
def tagBranch (st : VState) (n : VNode) : VState :=
  if n.isTag then { st with cur := { st.cur with fullVersion := n.linkText } }
  else st

/-- Processing of one sibling node, exactly as the source's four `HasClass`
branches in order; a `return` in the Go closure (the commit-time error path)
skips the remaining branches of that node. -/
def versionsStep (now : Int) (st : VState) (n : VNode) : VState :=
  let st2 := tagBranch (majorBranch st n) n
  if n.isCommitTime then
    match normalizeTime now (goTrim n.text) with
    | .error e => { st2 with errs := st2.errs ++ [e] }
    | .ok t =>
        detailsBranch now
          { st2 with
            out := st2.out ++ [{ st2.cur with date := t }]
            cur := {} } n
  else detailsBranch now st2 n

/-- The whole walk from a given state. -/
def versionsFold (now : Int) (st : VState) (ns : List VNode) : VState :=
  ns.foldl (versionsStep now) st

/-- The `Versions` walk of the source: blank record, empty sticky major
version, no output, no errors; whatever record is still in progress when the
sibling sequence ends is dropped with the state. -/
def versionsRun (now : Int) (ns : List VNode) : VState :=
  versionsFold now {} ns

/-! ## The current `Search` pagination loop (unnamed variant) -/

/-- The `SearchResult` record of the source. -/
structure SearchResult where
  pkg : String := ""
  version : String := ""
  published : String := ""
  importedBy : Int := 0
  license : String := ""
  synopsis : String := ""
deriving DecidableEq, Repr

/-- One `.SearchSnippet` of the current variant: the text projections its
extraction rules read. -/
structure Snippet where
  titleText : String := ""
  synopsisText : String := ""
  versionSpanText : String := ""
  publishedText : String := ""
  importedByText : String := ""
  licenseLinkText : String := ""
  licenseText : String := ""
deriving DecidableEq, Repr

/-- Loop state of the current `Search`: collected results, accumulated
errors, the continuation flag and the 1-based page index. -/
structure SState where
  results : List SearchResult := []
  errs : List String := []
  shouldContinue : Bool := true
  page : Nat := 1
deriving DecidableEq, Repr

/-- Version text handling of the current variant: the span text is split on
`" published on "` and the first part is trimmed (`strings.Split` never
returns an empty slice, so the `len > 0` guard always holds). -/
def versionOfSpanText (s : String) : String :=
  match splitOnList " published on ".data s.data with
  | [] => ""
  | part :: _ => goTrim part.asString

/-- Extraction of one snippet by the current variant: skipped (and the loop
flagged to stop) once the running total has reached the limit; a published
date that fails to normalize appends an error but still produces a result
carrying the raw text; an unparseable imported-by count falls back to 0; the
license falls back to a secondary anchor. -/
def processSnippet (now limit : Int) (st : SState) (sn : Snippet) : SState :=
  if (st.results.length : Int) ≥ limit then { st with shouldContinue := false }
  else
    let pkg := goTrim sn.titleText
    let synopsis := goTrim sn.synopsisText
    let version := versionOfSpanText sn.versionSpanText
    let publishedDateStr := goTrim sn.publishedText
    let (published, errs) :=
      match normalizeTime now publishedDateStr with
      | .ok t => (t, st.errs)
      | .error _ => (publishedDateStr, st.errs ++ ["parsing published date"])
    let importedBy :=
      match goAtoi (stripCommas (goTrim sn.importedByText).data) with
      | some n => n
      | none => 0
    let license0 := goTrim sn.licenseLinkText
    let license := if license0 = "" then goTrim sn.licenseText else license0
    { st with
      errs := errs
      results := st.results ++
        [{ pkg := pkg, synopsis := synopsis, version := version,
           published := published, importedBy := importedBy,
           license := license }] }

/-- The `.SearchResults` handler of the current variant for one fetched page
(`none`: the page has no `.SearchResults` element, so the handler never fires;
`some []`: zero snippets, stop; otherwise each snippet is processed in
order — goquery's `Each` has no break, so every snippet still runs through
`processSnippet`). -/
def processSearchPage (now limit : Int) (st : SState) : Option (List Snippet) → SState
  | none => st
  | some [] => { st with shouldContinue := false }
  | some sns => sns.foldl (processSnippet now limit) st

/-- Processing one snippet never changes the page index. -/
lemma processSnippet_page (now limit : Int) (st : SState) (sn : Snippet) :
    (processSnippet now limit st sn).page = st.page := by
  unfold processSnippet
  split <;> rfl

/-- Processing a snippet list never changes the page index. -/
lemma foldl_processSnippet_page (now limit : Int) :
    ∀ (sns : List Snippet) (st : SState),
      (sns.foldl (processSnippet now limit) st).page = st.page := by
  intro sns
  induction sns with
  | nil => intro st; rfl
  | cons sn sns ih =>
      intro st
      simp only [List.foldl_cons, ih, processSnippet_page]

/-- Processing one fetched page never changes the page index. -/
lemma processSearchPage_page (now limit : Int) (st : SState)
    (ps : Option (List Snippet)) :
    (processSearchPage now limit st ps).page = st.page := by
  unfold processSearchPage
  match ps with
  | none => rfl
  | some [] => rfl
  | some (sn :: sns) => exact foldl_processSnippet_page now limit (sn :: sns) st

/-- The current `Search` pagination loop: while the continuation flag holds
and fewer than `limit` results are collected, fetch the page (the fetch and
`colly.Visit` are modelled as succeeding; a fetch error would only clear the
continuation flag), increment the page index, and break unconditionally once
the index exceeds 10. -/
def searchLoop (now limit : Int) (pages : Nat → Option (List Snippet)) (st : SState) :
    SState :=
  if st.shouldContinue ∧ (st.results.length : Int) < limit then
    let st1 := processSearchPage now limit st (pages st.page)
    let st2 := { st1 with page := st1.page + 1 }
    if st2.page > 10 then st2
    else searchLoop now limit pages st2
  else st
termination_by 11 - st.page
decreasing_by
  rename_i h2
  simp only [gt_iff_lt, not_lt, processSearchPage_page] at h2 ⊢
  have h3 : st1.page = st.page := processSearchPage_page now limit st (pages st.page)
  omega

/-- `Search` of the current variant: run the loop from the initial state
(page 1); with accumulated errors the collected results are discarded and the
error list returned instead. -/
def search (now limit : Int) (pages : Nat → Option (List Snippet)) :
    Except (List String) (List SearchResult) :=
  let fin := searchLoop now limit pages {}
  if fin.errs ≠ [] then .error fin.errs else .ok fin.results

/-! ## The legacy `Search` of `client.go` -/

/-- One `.LegacySearchSnippet` of the legacy variant: the text projections
its anchors provide. -/
structure LegacySnippet where
  titleText : String := ""
  synopsisText : String := ""
  versionText : String := ""
  publishedText : String := ""
  importedByText : String := ""
  licenseText : String := ""
deriving DecidableEq, Repr

/-- A fetched page of the legacy variant: the optional
`[data-test-id=results-total]` header text and the snippet list. -/
structure LegacyPage where
  resultsTotal : Option String := none
  snippets : List LegacySnippet := []
deriving Repr

/-- Loop state of the legacy `Search`. -/
structure LState where
  results : List SearchResult := []
  errs : List String := []
  morePages : Bool := true
  page : Nat := 1
deriving DecidableEq, Repr

/-- The legacy `results-total` handler: trims the header text, returns early
on `"0 results"`, splits on spaces; two tokens clear the continuation flag;
otherwise token 2 is read (a panic when absent) and parsed — a parse failure
is accumulated — then token 4 is read (a panic when absent, with **no**
length check) and the continuation flag is recomputed. -/
def resultsTotalHandler (limit : Int) (st : LState) (raw : String) :
    Except GoPanic LState :=
  let resultsStr := goTrim raw
  if resultsStr = "0 results" then .ok st
  else
    let resultsSplit := goSplitSp resultsStr.data
    if resultsSplit.length = 2 then .ok { st with morePages := false }
    else
      match resultsSplit.get? 2 with
      | none => .error .indexOutOfRange
      | some upperBoundStr =>
        match goAtoi upperBoundStr with
        | none => .ok { st with errs := st.errs ++ ["strconv.Atoi"] }
        | some upperBound =>
          match resultsSplit.get? 4 with
          | none => .error .indexOutOfRange
          | some totalResultsStr =>
            let reachedReqLimit := limit ≤ upperBound
            let reachedLastPage := upperBoundStr = totalResultsStr
            .ok { st with morePages := !reachedReqLimit && !reachedLastPage }

/-- The legacy snippet handler: returns early once the collected count equals
the limit; a failed date normalization or imported-by parse accumulates an
error and appends no result. -/
def legacySnippetStep (now limit : Int) (st : LState) (sn : LegacySnippet) :
    LState :=
  if (st.results.length : Int) = limit then st
  else
    let pkg := goTrim sn.titleText
    let synopsis := goTrim sn.synopsisText
    let version := goTrim sn.versionText
    match normalizeTime now (goTrim sn.publishedText) with
    | .error _ => { st with errs := st.errs ++ ["normalizeTime"] }
    | .ok published =>
      match goAtoi (stripCommas (goTrim sn.importedByText).data) with
      | none => { st with errs := st.errs ++ ["strconv.Atoi"] }
      | some importedBy =>
        { st with
          results := st.results ++
            [{ pkg := pkg, synopsis := synopsis, version := version,
               published := published, importedBy := importedBy,
               license := goTrim sn.licenseText }] }

/-- One legacy page visit: the `results-total` handler (when the element is
present) and then every snippet, in document order; a Go panic aborts the
whole call. -/
def processLegacyPage (now limit : Int) (st : LState) (pg : LegacyPage) :
    Except GoPanic LState :=
  let afterHeader : Except GoPanic LState :=
    match pg.resultsTotal with
    | none => .ok st
    | some raw => resultsTotalHandler limit st raw
  afterHeader.map fun st1 => pg.snippets.foldl (legacySnippetStep now limit) st1

/-- The legacy pagination loop `for page := 1; morePages; page++`, which has
no hard page-count ceiling; it is therefore modelled with explicit fuel:
`.ok none` means the fuel ran out with the loop still running.  After each
visit, accumulated errors end the call (returning the error list, collected
results discarded). -/
def legacyIter (now limit : Int) (pages : Nat → LegacyPage) :
    Nat → LState → Except GoPanic (Option LState)
  | 0, _ => .ok none
  | fuel + 1, st =>
    if st.morePages then
      match processLegacyPage now limit st (pages st.page) with
      | .error p => .error p
      | .ok st1 =>
        if st1.errs ≠ [] then .ok (some st1)
        else legacyIter now limit pages fuel { st1 with page := st1.page + 1 }
    else .ok (some st)

/-! ## `DescribePackage` -/

/-- The `Package` record of the source (images as `(alt, url)` pairs). -/
structure Package where
  pkg : String := ""
  isModule : Bool := false
  isPackage : Bool := false
  version : String := ""
  published : String := ""
  license : String := ""
  hasValidGoModFile : Bool := false
  hasRedistributableLicense : Bool := false
  hasTaggedVersion : Bool := false
  hasStableVersion : Bool := false
  repository : String := ""
  synopsis : String := ""
  images : List (String × String) := []
deriving DecidableEq, Repr

/-- A fetched unit page, as the `DescribePackage` handlers read it: each
field is the text its structural anchor provides, `none` when the anchor is
absent (the handler then never fires); `metaChecked` lists, per `.UnitMeta`
`li`, whether a checked icon is present; `titleSiblings` lists the texts of
the siblings following the title heading, in order. -/
structure DescribePage where
  versionText : Option String := none
  licensesText : Option String := none
  metaChecked : Option (List Bool) := none
  repoText : Option String := none
  commitTimeText : Option String := none
  titleSiblings : Option (List String) := none
  readmeImages : List (String × String) := []
deriving Repr

/-- Go `strings.TrimPrefix`. -/
def goTrimPrefixStr (p s : String) : String :=
  if goHasPrefix p s then (s.data.drop p.data.length).asString else s

/-- Go `strings.Trim(s, cutset)`: remove leading and trailing characters
belonging to the cutset. -/
def goTrimCutset (cut : List Char) (s : String) : String :=
  (((s.data.dropWhile (cut.contains ·)).reverse.dropWhile
      (cut.contains ·)).reverse).asString

/-- The positional badge mapping of the `.UnitMeta` handler: checklist item
`i` sets badge `i` (`0` valid go.mod, `1` redistributable license, `2` tagged
version, `3` stable version); further items are ignored. -/
def applyBadges (p : Package) (checks : List Bool) : Package :=
  (checks.enum.foldl
    (fun q (i, checked) =>
      if i = 0 then { q with hasValidGoModFile := checked }
      else if i = 1 then { q with hasRedistributableLicense := checked }
      else if i = 2 then { q with hasTaggedVersion := checked }
      else if i = 3 then { q with hasStableVersion := checked }
      else q) p)

/-- The title-heading sibling scan: `"command"` is skipped, `"package"` and
`"module"` set their flags and the scan continues, and the first other text
(including the empty text produced once the siblings run out) ends the scan,
reporting a probable parsing bug when neither flag is set. -/
def scanTitle : List String → Bool → Bool → Bool × Bool × Bool
  | [], isP, isM => (isP, isM, !isP && !isM)
  | t :: rest, isP, isM =>
    if t = "command" then scanTitle rest isP isM
    else if t = "package" then scanTitle rest true isM
    else if t = "module" then scanTitle rest isP true
    else (isP, isM, !isP && !isM)

/-- Image URL rewriting of the readme handler: untouched when the source is
`http`-prefixed, otherwise the base URL is prepended, inserting a `/` when
the source lacks a leading one. -/
def absImageURL (baseURL src : String) : String :=
  if !goHasPrefix "http" src then
    if goHasPrefix "/" src then baseURL ++ src else baseURL ++ "/" ++ src
  else src

/-- The extraction pass of `DescribePackage` over one fetched page: every
handler runs (in registration order; the order is immaterial, the handlers
touch disjoint fields and the claims ignore error order), each failure is
appended to the composite error list, and no failure stops the pass. -/
def describeRun (now : Int) (baseURL pkgName : String) (pg : DescribePage) :
    Package × List String :=
  let p : Package := { pkg := pkgName }
  let p := match pg.versionText with
    | none => p
    | some t => { p with version := goTrim (goTrimPrefixStr "Version: " t) }
  let p := match pg.licensesText with
    | none => p
    | some t => { p with license := goTrim t }
  let p := match pg.metaChecked with
    | none => p
    | some checks => applyBadges p checks
  let p := match pg.repoText with
    | none => p
    | some t => { p with repository := goTrim (goTrimCutset ['\\', 'n'] t) }
  let (p, errs) := match pg.commitTimeText with
    | none => (p, ([] : List String))
    | some t =>
      match normalizeTime now (goTrimPrefixStr "Published: " (goTrim t)) with
      | .ok d => ({ p with published := d }, [])
      | .error _ => (p, ["normalizeTime"])
  let (p, errs) := match pg.titleSiblings with
    | none => (p, errs)
    | some sibs =>
      match scanTitle sibs false false with
      | (isP, isM, bad) =>
        ({ p with isPackage := isP, isModule := isM },
         errs ++ if bad then ["probable parsing bug"] else [])
  let p := { p with
    images := pg.readmeImages.map fun (alt, src) => (alt, absImageURL baseURL src) }
  (p, errs)

/-- `DescribePackage`'s return discipline: with a non-empty composite error
list the record is discarded and `(nil, errs)` returned; otherwise the record
is returned with a nil error. -/
def describeResult (now : Int) (baseURL pkgName : String) (pg : DescribePage) :
    Option Package × List String :=
  let (p, errs) := describeRun now baseURL pkgName pg
  if errs ≠ [] then (none, errs) else (some p, [])

/-! ## Repository URL normalization and host classification -/

/-- The leftmost match of the anchored-suffix pattern
`git@([^:]+):(.+)\.git$` (Go `regexp.FindStringSubmatch`): at the earliest
position, literal `git@`, then a non-empty run without `:` up to a `:`, then
a non-empty middle without a newline (`.` does not match `\n`), then `.git`
at the very end of the string. -/
def gitAtHere (cs : List Char) : Option (List Char × List Char) :=
  if startsWithList ['g', 'i', 't', '@'] cs then
    let after := cs.drop 4
    let host := after.takeWhile (fun c => c ≠ ':')
    if host = [] then none
    else
      match after.drop host.length with
      | ':' :: tail =>
        if startsWithList ['t', 'i', 'g', '.'] tail.reverse then
          let middle := tail.take (tail.length - 4)
          if middle ≠ [] && middle.all (fun c => c ≠ '\n') then
            some (host, middle)
          else none
        else none
      | _ => none
  else none

/-- Scan for the leftmost position where the `git@...` pattern matches. -/
def gitAtScan : List Char → Option (List Char × List Char)
  | [] => none
  | c :: rest =>
    match gitAtHere (c :: rest) with
    | some r => some r
    | none => gitAtScan rest

/-- `normalizeRepoURL` from the source: a `git@`-prefixed URL matching the
SSH pattern becomes `https://host/path`; otherwise (including a `git@` URL
the pattern rejects) a `.git` suffix is stripped and `https://` is prepended
unconditionally. -/
def normalizeRepoURL (s : String) : String :=
  if goHasPrefix "git@" s then
    match gitAtScan s.data with
    | some (host, path) =>
        "https://" ++ host.asString ++ "/" ++ path.asString
    | none => normalizeRepoTail s
  else normalizeRepoTail s
where
  /-- The shared tail: strip a `.git` suffix, prepend `https://`. -/
  normalizeRepoTail (s : String) : String :=
    let s2 := if goHasSuffix ".git" s then (s.data.take (s.data.length - 4)).asString
              else s
    "https://" ++ s2

/-- The git host classification of the source. -/
inductive GitHostType where
  | unknown
  | gitHub
  | gitLab
  | codeberg
  | sourcehut
deriving DecidableEq, Repr

/-- `net/url` host extraction, for the URLs this code builds: reject any
ASCII control byte (as `url.Parse` does before anything else), cut the
fragment at the first `#` and the query at the first `?`, read a scheme
(letter, then letters/digits/`+`/`-`/`.`, terminated by `:`), require the
`//` authority marker, and take the authority up to the next `/`
(`none` models a parse error; the userinfo/port refinements of `parseHost`
never fire on the hosts the claims exercise). -/
def goURLHost (raw : String) : Option String :=
  if raw.data.any (fun c => c.toNat < 0x20 || c.toNat = 0x7f) then none
  else
    let cs := (raw.data.takeWhile (fun c => c ≠ '#')).takeWhile (fun c => c ≠ '?')
    match schemeSplit cs [] with
    | none => some ""
    | some rest =>
      match rest with
      | '/' :: '/' :: auth =>
          some ((auth.takeWhile (fun c => c ≠ '/')).asString)
      | _ => some ""
where
  /-- Scan an RFC 3986 scheme: returns the input after the `:`, or `none`
  when there is no scheme. -/
  schemeSplit : List Char → List Char → Option (List Char)
    | [], _ => none
    | c :: cs, acc =>
      if c = ':' then (if acc = [] then none else some cs)
      else if c.isAlpha || (acc ≠ [] && (c.isDigit || c = '+' || c = '-' || c = '.')) then
        schemeSplit cs (acc ++ [c])
      else none

/-- `identifyGitHost` from the source: parse the URL (errors classify as
unknown) and match the host by substring against the known providers. -/
def identifyGitHost (repoURL : String) : GitHostType :=
  match goURLHost repoURL with
  | none => .unknown
  | some h =>
    if containsList "github.com".data h.data then .gitHub
    else if containsList "gitlab.com".data h.data then .gitLab
    else if containsList "codeberg.org".data h.data then .codeberg
    else if containsList "git.sr.ht".data h.data then .sourcehut
    else .unknown

/-- `fetchDescription` from the source; the four provider extractions are
external HTTP effects and are passed as functions of the normalized URL. -/
def fetchDescription (gh gl cb sh : String → String) (repoURL : String) :
    String :=
  if repoURL = "" then ""
  else
    let normalizedURL := normalizeRepoURL repoURL
    match identifyGitHost normalizedURL with
    | .gitHub => gh normalizedURL
    | .gitLab => gl normalizedURL
    | .codeberg => cb normalizedURL
    | .sourcehut => sh normalizedURL
    | .unknown => ""

/-! ## Claim C8 -/

/-- **C8** (confirmed): `normalizeRepoURL` maps the SSH form
`git@github.com:user/repo.git` to `https://github.com/user/repo` and the
scheme-less `gitlab.com/user/repo.git` to `https://gitlab.com/user/repo`
(suffix stripped, `https://` prepended). -/
theorem c8_normalizeRepoURL_forms :
    normalizeRepoURL "git@github.com:user/repo.git" = "https://github.com/user/repo" ∧
    normalizeRepoURL "gitlab.com/user/repo.git" = "https://gitlab.com/user/repo" := by
  constructor <;> rfl

/-! ## Claim C10 -/

/-- **C10** (confirmed): the legacy `results-total` handler is not total: on
the header text `"1 – 10"` — which splits on spaces into exactly three
tokens whose third token parses as the number 10 — it reads index 4 of the
split slice without a length check and panics with an index-out-of-range
error, for every limit and every incoming state; at the concrete state it is
the panic value, not an accumulated error. -/
theorem c10_resultsTotal_panics :
    (goSplitSp (goTrim "1 – 10").data).length = 3 ∧
    goAtoi ((goSplitSp (goTrim "1 – 10").data).getD 2 []) = some 10 ∧
    (∀ (limit : Int) (st : LState),
      resultsTotalHandler limit st "1 – 10" = .error .indexOutOfRange) := by
  refine ⟨by decide, by decide, fun limit st => ?_⟩
  rfl

/-! ## Claim C1 -/

/-- **C1**, counterexample: a sibling sequence consisting of a single
`Version-commitTime` node with a valid date appends a `Version` record whose
`fullVersion` is empty — refuting the claimed invariant that every appended
record has a non-empty `fullVersion` (the date part of the invariant does
hold: `"today"` normalized successfully). -/
theorem c1_empty_fullVersion :
    (versionsRun 0 [{ isCommitTime := true, text := "today" }]).out =
      [{ majorVersion := "", fullVersion := "", date := "1970-01-01" }] ∧
    normalizeTime 0 "today" = .ok "1970-01-01" := by
  constructor <;> rfl

/-! ## Claim C4 -/

/-- **C4**, counterexample: `"3 day agony"` is not `"today"`, is not a
`"<N> <unit>(s) ago"` phrase (its space-tokens are `3`, `day`, `agony`), and
is rejected by the absolute `"Jan 2, 2006"` parser, so by the claimed
contract it would be a fatal error; yet the code accepts it — the relative
branch is selected by the substring `"ago"` occurring anywhere (here inside
`agony`) — and returns the current date minus 3 days. -/
theorem c4_ago_substring :
    normalizeTime 0 "3 day agony" = .ok "1969-12-29" ∧
    goSplitSp "3 day agony".data = ["3".data, "day".data, "agony".data] ∧
    parseMonthDate "3 day agony".data = none := by
  refine ⟨rfl, by decide, rfl⟩

/-! ## Claim C5 -/

/-- **C5**, counterexample: the canonical output `"1970-01-01"` of
`normalizeTime` (produced here from `"today"` at the epoch), fed back to
`normalizeTime`, is **not** returned unchanged: the absolute-date branch
parses with the `"Jan 2, 2006"` layout, which rejects `YYYY-MM-DD`, so the
call fails. -/
theorem c5_roundtrip_fails :
    normalizeTime 0 "today" = .ok "1970-01-01" ∧
    normalizeTime 0 "1970-01-01" = .error .unparseableDate := by
  constructor <;> rfl

/-! ## Claim C7 -/

/-- `DescribePackage` can never return a non-nil primary record together
with a non-empty composite error list — whenever any error (including the
shape-violation diagnostic) was accumulated, the record is discarded and
`nil` returned with the errors. -/
lemma c7_never_record_with_errors :
    ∀ (now : Int) (baseURL pkgName : String) (pg : DescribePage),
      (describeResult now baseURL pkgName pg).1 = none ∨
      (describeResult now baseURL pkgName pg).2 = [] := by
  intro now baseURL pkgName pg
  unfold describeResult
  rcases describeRun now baseURL pkgName pg with ⟨p, errs⟩
  by_cases h : errs = [] <;> simp [h]

/-- **C7**, counterexample: on the concrete shape-violating page (a title
heading followed by an unrecognized sibling label), `DescribePackage`
returns a `nil` record with the diagnostic in the error list — not the
claimed non-nil primary record alongside the non-empty error list (and
`c7_never_record_with_errors` shows the claimed combination is impossible
on every input). -/
theorem c7_nil_record_with_errors :
    describeResult 0 "https://pkg.go.dev" "foo" { titleSiblings := some ["odd"] } =
      (none, ["probable parsing bug"]) := by
  rfl

/-! ## Claim C2 -/

/-- One snippet extraction preserves the bound `results ≤ limit` (a result is
appended only when the running total is still below the limit). -/
lemma processSnippet_len_le (now limit : Int) (st : SState) (sn : Snippet)
    (h : (st.results.length : Int) ≤ limit) :
    (((processSnippet now limit st sn).results.length : Int)) ≤ limit := by
  unfold processSnippet
  split
  · exact h
  · rename_i hlt
    rcases hnt : normalizeTime now (goTrim sn.publishedText) with e | t <;>
      simp only [hnt, List.length_append, List.length_singleton] <;>
      push_cast <;> omega

/-- Snippet-list extraction preserves the bound. -/
lemma foldl_processSnippet_len_le (now limit : Int) :
    ∀ (sns : List Snippet) (st : SState),
      (st.results.length : Int) ≤ limit →
      (((sns.foldl (processSnippet now limit) st).results.length : Int)) ≤ limit := by
  intro sns
  induction sns with
  | nil => intro st h; exact h
  | cons sn sns ih =>
      intro st h
      exact ih _ (processSnippet_len_le now limit st sn h)

/-- Page extraction preserves the bound. -/
lemma processSearchPage_len_le (now limit : Int) (st : SState)
    (ps : Option (List Snippet)) (h : (st.results.length : Int) ≤ limit) :
    (((processSearchPage now limit st ps).results.length : Int)) ≤ limit := by
  unfold processSearchPage
  match ps with
  | none => exact h
  | some [] => exact h
  | some (sn :: sns) => exact foldl_processSnippet_len_le now limit (sn :: sns) st h

/-- The `results-total` handler never touches the collected results. -/
lemma resultsTotalHandler_results (limit : Int) (st : LState) (raw : String)
    (st' : LState) (h : resultsTotalHandler limit st raw = .ok st') :
    st'.results = st.results := by
  unfold resultsTotalHandler at h
  dsimp only at h
  split at h
  · cases h; rfl
  · split at h
    · cases h; rfl
    · split at h
      · cases h
      · split at h
        · cases h; rfl
        · split at h
          · cases h
          · cases h; rfl

/-- One legacy snippet preserves the bound. -/
lemma legacySnippetStep_len_le (now limit : Int) (st : LState)
    (sn : LegacySnippet) (h : (st.results.length : Int) ≤ limit) :
    (((legacySnippetStep now limit st sn).results.length : Int)) ≤ limit := by
  unfold legacySnippetStep
  split
  · exact h
  · rename_i hne
    rcases hnt : normalizeTime now (goTrim sn.publishedText) with e | t
    · simpa using h
    · simp only [hnt]
      rcases hat : goAtoi (stripCommas (goTrim sn.importedByText).data) with _ | n
      · simpa using h
      · simp only [List.length_append, List.length_singleton]
        have : (st.results.length : Int) ≠ limit := fun hc => hne hc
        push_cast
        omega

/-- A legacy snippet list preserves the bound. -/
lemma foldl_legacySnippetStep_len_le (now limit : Int) :
    ∀ (sns : List LegacySnippet) (st : LState),
      (st.results.length : Int) ≤ limit →
      (((sns.foldl (legacySnippetStep now limit) st).results.length : Int)) ≤ limit := by
  intro sns
  induction sns with
  | nil => intro st h; exact h
  | cons sn sns ih =>
      intro st h
      exact ih _ (legacySnippetStep_len_le now limit st sn h)

/-- One legacy page visit preserves the bound. -/
lemma processLegacyPage_len_le (now limit : Int) (st : LState)
    (pg : LegacyPage) (st' : LState)
    (h : processLegacyPage now limit st pg = .ok st')
    (hb : (st.results.length : Int) ≤ limit) :
    ((st'.results.length : Int)) ≤ limit := by
  unfold processLegacyPage at h
  rcases hh : (match pg.resultsTotal with
      | none => Except.ok st
      | some raw => resultsTotalHandler limit st raw) with p | st1
  · rw [hh] at h; cases h
  · rw [hh] at h
    simp only [Except.map] at h
    cases h
    have h1 : st1.results = st.results := by
      rcases hr : pg.resultsTotal with _ | raw
      · rw [hr] at hh; cases hh; rfl
      · rw [hr] at hh; exact resultsTotalHandler_results limit st raw st1 hh
    exact foldl_legacySnippetStep_len_le now limit pg.snippets st1 (h1 ▸ hb)

/-- **C2**, counterexample: the claim quantifies over *every* limit, but for
the negative limit `-1` (a value of the Go `int` field `Limit`) the loop of
the current variant collects nothing, and the empty result sequence already
has length greater than the limit. -/
theorem c2_negative_limit :
    searchLoop 0 (-1) (fun _ => none) {} = {} ∧
    ¬ (((searchLoop 0 (-1) (fun _ => none) ({} : SState)).results.length : Int) ≤ -1) := by
  have h : searchLoop 0 (-1) (fun _ => none) {} = {} := by
    rw [searchLoop]
    norm_num
  exact ⟨h, by rw [h]; decide⟩

/-- **C2**, amended: for every query and every *non-negative* limit, the
result sequences of both `Search` variants never exceed the limit: each
per-snippet check stops appending the instant the running total reaches the
limit.  (For negative limits the sequences are still empty but the
inequality `length ≤ limit` itself is unsatisfiable.) -/
theorem c2_results_bounded :
    (∀ (now limit : Int) (pages : Nat → Option (List Snippet)) (st : SState),
       (st.results.length : Int) ≤ limit →
       (((searchLoop now limit pages st).results.length : Int)) ≤ limit) ∧
    (∀ (now limit : Int) (pages : Nat → LegacyPage) (fuel : Nat) (st st' : LState),
       (st.results.length : Int) ≤ limit →
       legacyIter now limit pages fuel st = .ok (some st') →
       ((st'.results.length : Int)) ≤ limit) := by
  constructor
  · intro now limit pages st
    induction st using searchLoop.induct now limit pages with
    | case1 st hc st1 st2 h10 =>
        intro h
        rw [searchLoop, if_pos hc, if_pos h10]
        exact processSearchPage_len_le now limit st (pages st.page) h
    | case2 st hc st1 st2 h10 ih =>
        intro h
        rw [searchLoop, if_pos hc, if_neg h10]
        exact ih (processSearchPage_len_le now limit st (pages st.page) h)
    | case3 st hc =>
        intro h
        rw [searchLoop, if_neg hc]
        exact h
  · intro now limit pages fuel
    induction fuel with
    | zero => intro st st' h hit; cases hit
    | succ fuel ih =>
        intro st st' h hit
        simp only [legacyIter] at hit
        by_cases hm : st.morePages = true
        · rw [if_pos hm] at hit
          rcases hp : processLegacyPage now limit st (pages st.page) with p | st1
          · rw [hp] at hit; cases hit
          · rw [hp] at hit
            have hb1 : (st1.results.length : Int) ≤ limit :=
              processLegacyPage_len_le now limit st (pages st.page) st1 hp h
            dsimp only at hit
            rcases eq_or_ne st1.errs ([] : List String) with he | he
            · rw [if_neg (by simp [he])] at hit
              exact ih _ st' (by simpa using hb1) hit
            · rw [if_pos he] at hit
              cases hit
              exact hb1
        · rw [if_neg hm] at hit
          cases hit
          exact h

/-- Witness for `c2_results_bounded`: both bounds applied at concrete inputs
(limit 5 with no pages; limit 3 with one empty legacy page, where the loop
ends because the header reports only two tokens). -/
theorem c2_results_bounded_witness :
    (((searchLoop 0 5 (fun _ => none) ({} : SState)).results.length : Int)) ≤ 5 ∧
    (((⟨[], [], false, 2⟩ : LState).results.length : Int)) ≤ 3 := by
  constructor
  · exact c2_results_bounded.1 0 5 (fun _ => none) {} (by decide)
  · exact c2_results_bounded.2 0 3 (fun _ => { resultsTotal := some "2 results" })
      2 {} ⟨[], [], false, 2⟩ (by decide) (by rfl)

/-! ## Claim C3 -/

/-- A `results-total` header reporting an upper bound far below both the
limit and the grand total leaves the continuation flag set. -/
lemma legacy_header_more (st : LState) :
    resultsTotalHandler 1000000 st "1 – 10 of 100000" =
      .ok { st with morePages := true } := rfl

/-- Visiting a page carrying only that header leaves the state unchanged
except for the continuation flag. -/
lemma legacy_const_page_step (now : Int) (st : LState) :
    processLegacyPage now 1000000 st { resultsTotal := some "1 – 10 of 100000" } =
      .ok { st with morePages := true } := rfl

/-- On the constant more-pages page stream, the legacy loop never finishes:
for every fuel it is still running. -/
lemma legacy_const_runs (now : Int) :
    ∀ (fuel : Nat) (st : LState), st.morePages = true → st.errs = [] →
      legacyIter now 1000000
        (fun _ => { resultsTotal := some "1 – 10 of 100000" }) fuel st = .ok none := by
  intro fuel
  induction fuel with
  | zero => intro st _ _; rfl
  | succ fuel ih =>
      intro st hm he
      simp only [legacyIter]
      rw [if_pos hm, legacy_const_page_step]
      dsimp only
      rw [if_neg (by simp [he])]
      exact ih _ rfl (by simp [he])

/-- **C3**, counterexample: the legacy `Search` of `client.go` has no hard
page-count ceiling.  On a page stream whose header always reports
`"1 – 10 of 100000"` (more pages, limit 1000000 not reached), the loop is
still running after 50 page visits, and even started at page index 1000 —
far beyond any fixed ceiling, in particular beyond the 10-page cap of the
current variant — it keeps iterating. -/
theorem c3_legacy_no_ceiling :
    legacyIter 0 1000000
      (fun _ => { resultsTotal := some "1 – 10 of 100000" }) 50 ({} : LState) = .ok none ∧
    legacyIter 0 1000000
      (fun _ => { resultsTotal := some "1 – 10 of 100000" }) 1
      ⟨[], [], true, 1000⟩ = .ok none := by
  exact ⟨legacy_const_runs 0 50 {} rfl rfl, legacy_const_runs 0 1 _ rfl rfl⟩

/-- **C3**, amended: the pagination loop of the *current* `Search` variant
stops unconditionally after the fixed page cap: from any state with page
index at most 10, for every limit and every page stream, the loop terminates
(it is a total function) with a final page index of at most 11, i.e. at most
10 page visits; the legacy `client.go` loop has no such ceiling. -/
theorem c3_page_cap :
    ∀ (now limit : Int) (pages : Nat → Option (List Snippet)) (st : SState),
      st.page ≤ 10 → (searchLoop now limit pages st).page ≤ 11 := by
  intro now limit pages st
  induction st using searchLoop.induct now limit pages with
  | case1 st hc st1 st2 h10 =>
      intro h
      rw [searchLoop, if_pos hc, if_pos h10]
      have hp := processSearchPage_page now limit st (pages st.page)
      dsimp only
      omega
  | case2 st hc st1 st2 h10 ih =>
      intro h
      rw [searchLoop, if_pos hc, if_neg h10]
      have hp := processSearchPage_page now limit st (pages st.page)
      exact ih (by dsimp only at h10 ⊢; omega)
  | case3 st hc =>
      intro h
      rw [searchLoop, if_neg hc]
      omega

/-- Witness for `c3_page_cap` at a concrete input. -/
theorem c3_page_cap_witness :
    (searchLoop 0 5 (fun _ => none) ({} : SState)).page ≤ 11 :=
  c3_page_cap 0 5 (fun _ => none) {} (by decide)

/-! ## Claims C1 and C6: accumulator lemmas -/

/-- The major branch never touches the emitted output. -/
lemma majorBranch_out (st : VState) (n : VNode) :
    (majorBranch st n).out = st.out := by
  unfold majorBranch; split <;> rfl

/-- The tag branch never touches the emitted output. -/
lemma tagBranch_out (st : VState) (n : VNode) :
    (tagBranch st n).out = st.out := by
  unfold tagBranch; split <;> rfl

/-- The tag branch never touches the sticky major version. -/
lemma tagBranch_curMajor (st : VState) (n : VNode) :
    (tagBranch st n).curMajor = st.curMajor := by
  unfold tagBranch; split <;> rfl

/-- How the major branch can change the sticky major version: not at all, or
to the non-blank trimmed label text of a major node. -/
lemma majorBranch_curMajor (st : VState) (n : VNode) :
    (majorBranch st n).curMajor = st.curMajor ∨
      (n.isMajor = true ∧ (majorBranch st n).curMajor = goTrim n.text ∧
        goTrim n.text ≠ "") := by
  unfold majorBranch
  by_cases hm : n.isMajor = true
  · rw [if_pos hm]
    by_cases hmv : goTrim n.text ≠ ""
    · exact Or.inr ⟨hm, by simp [hmv], hmv⟩
    · exact Or.inl (by simp [hmv])
  · rw [if_neg hm]; exact Or.inl rfl

/-- Exhaustive description of the details branch: it either leaves the state
unchanged, or (on a details node whose cleaned summary text normalizes)
appends the in-progress record stamped with the normalized date and resets
the record. -/
lemma detailsBranch_cases (now : Int) (st : VState) (n : VNode) :
    detailsBranch now st n = st ∨
      (n.isDetails = true ∧ ∃ t, normalizeTime now (goTrim n.summaryText) = .ok t ∧
        detailsBranch now st n =
          { st with out := st.out ++ [{ st.cur with date := t }], cur := {} }) := by
  unfold detailsBranch
  by_cases hd : n.isDetails = true
  · rw [if_pos hd]
    rcases hn : normalizeTime now (goTrim n.summaryText) with e | t
    · exact Or.inl rfl
    · exact Or.inr ⟨hd, t, rfl, rfl⟩
  · rw [if_neg hd]; exact Or.inl rfl

/-- A node carrying no terminal marker emits nothing. -/
lemma versionsStep_not_terminal (now : Int) (st : VState) (n : VNode)
    (hc : n.isCommitTime = false) (hd : n.isDetails = false) :
    (versionsStep now st n).out = st.out := by
  unfold versionsStep detailsBranch
  simp only [hc, hd, Bool.false_eq_true, if_false, tagBranch_out, majorBranch_out]

/-- What the details branch contributes after a commit-time emission: it
either leaves the already-emitted record as the only addition, or emits a
second record (from the already-reset blank state). -/
lemma commit_emit_app (now : Int) (stB st3 : VState) (n : VNode) (t : String)
    (h3 : st3 = { stB with out := stB.out ++ [{ stB.cur with date := t }], cur := {} }) :
    ∃ app : List Version,
      app ≠ [] ∧
      (detailsBranch now st3 n).out = stB.out ++ app ∧
      (∀ v ∈ app, v.date = t ∨ normalizeTime now (goTrim n.summaryText) = .ok v.date) ∧
      (detailsBranch now st3 n).cur = {} ∧
      (detailsBranch now st3 n).curMajor = stB.curMajor := by
  have h3out : st3.out = stB.out ++ [{ stB.cur with date := t }] := by rw [h3]
  have h3cur : st3.cur = ({} : Version) := by rw [h3]
  have h3maj : st3.curMajor = stB.curMajor := by rw [h3]
  rcases detailsBranch_cases now st3 n with hdc | ⟨hd, t2, hn2, hdc⟩
  · exact ⟨[{ stB.cur with date := t }], by simp, by rw [hdc, h3out],
      fun v hv => by simp only [List.mem_singleton] at hv; subst hv; exact Or.inl rfl,
      by rw [hdc, h3cur], by rw [hdc, h3maj]⟩
  · refine ⟨[{ stB.cur with date := t }, { st3.cur with date := t2 }], by simp, ?_, ?_, ?_, ?_⟩
    · rw [hdc, h3out]
      simp
    · intro v hv
      simp only [List.mem_cons, List.not_mem_nil, or_false] at hv
      rcases hv with hv | hv <;> subst hv
      · exact Or.inl rfl
      · exact Or.inr hn2
    · rw [hdc]
    · rw [hdc, h3maj]

/-- What the details branch alone contributes to the output. -/
lemma details_only_app (now : Int) (stB : VState) (n : VNode) :
    ∃ app : List Version,
      (detailsBranch now stB n).out = stB.out ++ app ∧
      (∀ v ∈ app, normalizeTime now (goTrim n.summaryText) = .ok v.date) ∧
      (app ≠ [] → (detailsBranch now stB n).cur = {}) ∧
      (n.isDetails = false → app = []) ∧
      (detailsBranch now stB n).curMajor = stB.curMajor := by
  rcases detailsBranch_cases now stB n with hdc | ⟨hd, t2, hn2, hdc⟩
  · exact ⟨[], by rw [hdc]; simp, by simp, by simp [hdc], fun _ => rfl, by rw [hdc]⟩
  · refine ⟨[{ stB.cur with date := t2 }], by rw [hdc], ?_, fun _ => by rw [hdc], ?_, by rw [hdc]⟩
    · intro v hv
      simp only [List.mem_singleton] at hv
      subst hv
      exact hn2
    · intro hdf; rw [hdf] at hd; cases hd

/-- **C1**, amended: in every step of the `Versions` walk, records are
appended only at the end of the output, each appended record's `date` is a
successful `normalizeTime` result of the node's (cleaned, trimmed) text, any
step that appends resets the in-progress record to the zero `Version`, a
node without a terminal marker appends nothing, and the sticky major version
survives every step (changing only to a non-blank major label text).  The
claimed non-empty `fullVersion` of appended records does **not** hold (see
the counterexample) and is dropped here. -/
theorem c1_emission (now : Int) (st : VState) (n : VNode) :
    ∃ app : List Version,
      (versionsStep now st n).out = st.out ++ app ∧
      (∀ v ∈ app, normalizeTime now (goTrim n.text) = .ok v.date ∨
                  normalizeTime now (goTrim n.summaryText) = .ok v.date) ∧
      (app ≠ [] → (versionsStep now st n).cur = {}) ∧
      (n.isCommitTime = false → n.isDetails = false → app = []) ∧
      ((versionsStep now st n).curMajor = st.curMajor ∨
        (n.isMajor = true ∧ (versionsStep now st n).curMajor = goTrim n.text ∧
          goTrim n.text ≠ "")) := by
  unfold versionsStep
  set B := tagBranch (majorBranch st n) n with hB
  have hBout : B.out = st.out := by
    rw [hB, tagBranch_out, majorBranch_out]
  have hMajOf : ∀ c : String, c = B.curMajor →
      (c = st.curMajor ∨ (n.isMajor = true ∧ c = goTrim n.text ∧ goTrim n.text ≠ "")) := by
    intro c hc
    rw [hc, hB, tagBranch_curMajor]
    exact majorBranch_curMajor st n
  by_cases hct : n.isCommitTime = true
  · rw [if_pos hct]
    rcases hn : normalizeTime now (goTrim n.text) with e | t
    · refine ⟨[], ?_, by simp, by simp, fun _ _ => rfl, hMajOf _ rfl⟩
      show B.out = st.out ++ []
      simpa using hBout
    · obtain ⟨app, hne, h1, h2, h3, h4⟩ :=
        commit_emit_app now B
          { B with out := B.out ++ [{ B.cur with date := t }], cur := {} } n t rfl
      refine ⟨app, ?_, ?_, fun _ => h3, ?_, hMajOf _ h4⟩
      · exact h1.trans (by rw [hBout])
      · intro v hv
        rcases h2 v hv with h | h
        · exact Or.inl (by rw [h])
        · exact Or.inr h
      · intro hcf _
        rw [hcf] at hct
        cases hct
  · rw [if_neg hct]
    obtain ⟨app, h1, h2, h3, h4, h5⟩ := details_only_app now B n
    refine ⟨app, ?_, fun v hv => Or.inr (h2 v hv), h3, fun _ hdf => h4 hdf, hMajOf _ h5⟩
    exact h1.trans (by rw [hBout])

/-- Witness for `c1_emission`: at the concrete single commit-time node the
emission happened, so the in-progress record was reset to the zero record. -/
theorem c1_emission_witness :
    (versionsStep 0 {} { isCommitTime := true, text := "today" }).cur = ({} : Version) := by
  obtain ⟨app, h1, _h2, h3, _h4, _h5⟩ :=
    c1_emission 0 {} { isCommitTime := true, text := "today" }
  refine h3 ?_
  intro happ
  rw [happ] at h1
  have : (versionsStep 0 {} { isCommitTime := true, text := "today" }).out =
      [{ majorVersion := "", fullVersion := "", date := "1970-01-01" }] := by rfl
  rw [this] at h1
  cases h1

/-- **C6** (confirmed): (1) on a pure `majorVersionLabel` node, non-blank
trimmed text updates the sticky major version and blank text leaves it at
the prior sticky value, and in both cases the in-progress record's
`majorVersion` is stamped from the (new) sticky value — so consecutive
groups inherit the prior major version; (2) a trailing run of nodes without
terminal markers contributes nothing to the output: the walk's emitted
records for `ns ++ trailing` are exactly those for `ns`, so a record still
pending when the sibling sequence ends is discarded, never flushed. -/
theorem c6_sticky_major_and_discard :
    (∀ (now : Int) (st : VState) (n : VNode),
      n.isMajor = true → n.isCommitTime = false → n.isDetails = false →
        (versionsStep now st n).cur.majorVersion = (versionsStep now st n).curMajor ∧
        (goTrim n.text ≠ "" → (versionsStep now st n).curMajor = goTrim n.text) ∧
        (goTrim n.text = "" → (versionsStep now st n).curMajor = st.curMajor)) ∧
    (∀ (now : Int) (st : VState) (ns trailing : List VNode),
      (∀ n ∈ trailing, n.isCommitTime = false ∧ n.isDetails = false) →
        (versionsFold now st (ns ++ trailing)).out = (versionsFold now st ns).out) := by
  constructor
  · intro now st n hm hc hd
    have hstep : versionsStep now st n = tagBranch (majorBranch st n) n := by
      unfold versionsStep detailsBranch
      simp only [hc, hd, Bool.false_eq_true, if_false]
    rw [hstep]
    unfold tagBranch majorBranch
    rw [if_pos hm]
    by_cases ht : n.isTag = true <;> by_cases hmv : goTrim n.text = "" <;>
      simp [ht, hmv]
  · intro now st ns trailing htr
    unfold versionsFold
    rw [List.foldl_append]
    have key : ∀ (tr : List VNode),
        (∀ n ∈ tr, n.isCommitTime = false ∧ n.isDetails = false) →
        ∀ (st0 : VState), (tr.foldl (versionsStep now) st0).out = st0.out := by
      intro tr
      induction tr with
      | nil => intro _ st0; rfl
      | cons n rest ih =>
          intro h st0
          rw [List.foldl_cons,
            ih (fun m hm => h m (List.mem_cons_of_mem n hm)) (versionsStep now st0 n)]
          exact versionsStep_not_terminal now st0 n
            (h n (List.mem_cons_self n rest)).1 (h n (List.mem_cons_self n rest)).2
    exact key trailing htr _


/-- Witness for `c6_sticky_major_and_discard` at concrete inputs: a blank
major label after a group stamps the inherited sticky value, and a trailing
major-label node flushes nothing. -/
theorem c6_sticky_major_and_discard_witness :
    (versionsStep 0 { curMajor := "v1" } { isMajor := true, text := " " }).cur.majorVersion =
      (versionsStep 0 { curMajor := "v1" } { isMajor := true, text := " " }).curMajor ∧
    (versionsFold 0 {} ([{ isCommitTime := true, text := "today" }] ++
        [{ isMajor := true, text := "v2" }])).out =
      (versionsFold 0 {} [{ isCommitTime := true, text := "today" }]).out := by
  constructor
  · exact (c6_sticky_major_and_discard.1 0 { curMajor := "v1" }
      { isMajor := true, text := " " } rfl rfl rfl).1
  · exact c6_sticky_major_and_discard.2 0 {} [{ isCommitTime := true, text := "today" }]
      [{ isMajor := true, text := "v2" }] (by intro n hn; simp at hn; subst hn; exact ⟨rfl, rfl⟩)

/-- With a non-empty composite error list, `DescribePackage` returns the
error list and no record. -/
lemma describeResult_of_errs (now : Int) (baseURL pkgName : String)
    (pg : DescribePage) (h : (describeRun now baseURL pkgName pg).2 ≠ []) :
    describeResult now baseURL pkgName pg =
      (none, (describeRun now baseURL pkgName pg).2) := by
  unfold describeResult
  rcases hdr : describeRun now baseURL pkgName pg with ⟨p, errs⟩
  rw [hdr] at h
  simp only [ne_eq] at h
  simp [h]

/-- **C7**, amended: when the title-heading scan detects a page that is
neither module nor package, the shape-violation is appended to the composite
error list as a diagnostic and does not abort the extraction pass — the
other fields (e.g. the version) are extracted exactly as they would be
without the violating heading — but `DescribePackage` then returns `nil`
together with the error list: a non-nil record is never paired with a
non-empty error list (see the counterexample), so the claim's "non-nil
primary record together with a non-empty composite error list" is corrected
to "nil record together with the composite error list the caller must
inspect". -/
theorem c7_diagnostic_not_abort :
    ∀ (now : Int) (baseURL pkgName : String) (pg : DescribePage)
      (sibs : List String),
      pg.titleSiblings = some sibs →
      (scanTitle sibs false false).2.2 = true →
        "probable parsing bug" ∈ (describeRun now baseURL pkgName pg).2 ∧
        (describeRun now baseURL pkgName pg).1.version =
          (describeRun now baseURL pkgName
            { pg with titleSiblings := none }).1.version ∧
        describeResult now baseURL pkgName pg =
          (none, (describeRun now baseURL pkgName pg).2) := by
  intro now baseURL pkgName pg sibs hts hbad
  obtain ⟨vt, lt, mc, rt, ct, ts, ri⟩ := pg
  simp only [DescribePage.titleSiblings] at hts
  subst hts
  have hmem : "probable parsing bug" ∈
      (describeRun now baseURL pkgName
        ⟨vt, lt, mc, rt, ct, some sibs, ri⟩).2 := by
    unfold describeRun
    rcases hsc : scanTitle sibs false false with ⟨isP, isM, bad⟩
    rw [hsc] at hbad
    simp only at hbad
    subst hbad
    rcases ct with _ | ctext
    · simp [hsc]
    · rcases hnt : normalizeTime now (goTrimPrefixStr "Published: " (goTrim ctext)) with e | d <;>
        simp [hnt, hsc]
  refine ⟨hmem, ?_, describeResult_of_errs now baseURL pkgName _
    (List.ne_nil_of_mem hmem)⟩
  unfold describeRun
  rcases hsc : scanTitle sibs false false with ⟨isP, isM, bad⟩
  simp

/-- Witness for `c7_diagnostic_not_abort` at a concrete page: the version is
still extracted, the diagnostic is in the list, and the result is `nil` with
the error list. -/
theorem c7_diagnostic_not_abort_witness :
    "probable parsing bug" ∈
      (describeRun 0 "https://pkg.go.dev" "foo"
        { versionText := some "Version: v1.0.0", titleSiblings := some ["odd"] }).2 ∧
    describeResult 0 "https://pkg.go.dev" "foo"
        { versionText := some "Version: v1.0.0", titleSiblings := some ["odd"] } =
      (none, (describeRun 0 "https://pkg.go.dev" "foo"
        { versionText := some "Version: v1.0.0", titleSiblings := some ["odd"] }).2) := by
  obtain ⟨h1, _h2, h3⟩ :=
    c7_diagnostic_not_abort 0 "https://pkg.go.dev" "foo"
      { versionText := some "Version: v1.0.0", titleSiblings := some ["odd"] }
      ["odd"] rfl (by decide)
  exact ⟨h1, h3⟩

/-! ## Claims C4 and C5: `normalizeTime` lemmas -/

/-- `strings.Split` never returns an empty slice. -/
lemma goSplitSp_ne_nil : ∀ cs : List Char, goSplitSp cs ≠ [] := by
  intro cs
  induction cs with
  | nil => simp [goSplitSp]
  | cons c rest ih =>
      unfold goSplitSp
      split
      · simp
      · rcases h : goSplitSp rest with _ | ⟨g, gs⟩
        · simp
        · simp

/-- A singleton split means the input had no spaces and is the single group. -/
lemma goSplitSp_singleton : ∀ (cs g : List Char), goSplitSp cs = [g] → cs = g := by
  intro cs
  induction cs with
  | nil =>
      intro g h
      unfold goSplitSp at h
      have h2 := congrArg List.head? h
      simpa using h2
  | cons c rest ih =>
      intro g h
      unfold goSplitSp at h
      split at h
      · injection h with _ h2
        exact absurd h2 (goSplitSp_ne_nil rest)
      · rcases hr : goSplitSp rest with _ | ⟨g0, gs⟩
        · exact absurd hr (goSplitSp_ne_nil rest)
        · rw [hr] at h
          injection h with h1 h2
          subst h2
          rw [← h1, ih g0 hr]

/-- A successfully parsed digit string consists of digits. -/
lemma goParseDigits_chars (ds : List Char) (m : Nat)
    (h : goParseDigits ds = some m) : ∀ c ∈ ds, isDigitChar c = true := by
  unfold goParseDigits at h
  split at h
  · rename_i hcond
    rcases Bool.and_eq_true_iff.mp hcond with ⟨-, hall⟩
    intro c hc
    simpa using List.all_eq_true.mp hall c (by simpa using hc)
  · cases h

/-- A successfully parsed integer consists of digits and an optional sign. -/
lemma goParseInt64_chars (cs : List Char) (n : Int) (h : goParseInt64 cs = some n) :
    ∀ c ∈ cs, isDigitChar c = true ∨ c = '+' ∨ c = '-' := by
  unfold goParseInt64 at h
  intro c hc
  split at h
  · rename_i rest
    rcases hm : goParseDigits rest with _ | m
    · rw [hm] at h; cases h
    · rcases List.mem_cons.mp hc with he | hin
      · exact Or.inr (Or.inl he)
      · exact Or.inl (goParseDigits_chars rest m hm c hin)
  · rename_i rest
    rcases hm : goParseDigits rest with _ | m
    · rw [hm] at h; cases h
    · rcases List.mem_cons.mp hc with he | hin
      · exact Or.inr (Or.inr he)
      · exact Or.inl (goParseDigits_chars rest m hm c hin)
  · rcases hm : goParseDigits cs with _ | m
    · rw [hm] at h; cases h
    · exact Or.inl (goParseDigits_chars cs m hm c hc)

/-- A string containing `"ago"` contains the letter `a`. -/
lemma containsList_ago_mem (cs : List Char)
    (h : containsList ['a', 'g', 'o'] cs = true) : 'a' ∈ cs := by
  induction cs with
  | nil => simp [containsList, startsWithList] at h
  | cons c rest ih =>
      unfold containsList at h
      rcases Bool.or_eq_true_iff.mp h with h1 | h1
      · unfold startsWithList at h1
        rcases Bool.and_eq_true_iff.mp h1 with ⟨he, -⟩
        simp only [decide_eq_true_eq] at he
        simp [← he]
      · simp [ih h1]

/-- The characters produced by the digit printer are digits. -/
lemma natDigitsAux_chars :
    ∀ (fuel n : Nat) (acc : List Char), (∀ c ∈ acc, isDigitChar c = true) →
      ∀ c ∈ natDigitsAux fuel n acc, isDigitChar c = true := by
  have hdigit : ∀ n : Nat, isDigitChar (Char.ofNat (48 + n % 10)) = true := by
    intro n
    have h : n % 10 < 10 := Nat.mod_lt _ (by norm_num)
    set k := n % 10 with hk
    interval_cases k <;> decide
  intro fuel
  induction fuel with
  | zero => intro n acc hacc c hc; exact hacc c hc
  | succ fuel ih =>
      intro n acc hacc c hc
      simp only [natDigitsAux] at hc
      by_cases hn : n < 10
      · rw [if_pos hn] at hc
        rcases List.mem_cons.mp hc with he | hin
        · rw [he]; exact hdigit n
        · exact hacc c hin
      · rw [if_neg hn] at hc
        refine ih (n / 10) _ ?_ c hc
        intro c' hc'
        rcases List.mem_cons.mp hc' with he | hin
        · rw [he]; exact hdigit n
        · exact hacc c' hin

/-- The characters of a padded integer are digits or a minus sign. -/
lemma padInt_chars (w : Nat) (x : Int) :
    ∀ c ∈ padInt w x, isDigitChar c = true ∨ c = '-' := by
  have hp : ∀ (m : Nat) (c : Char), c ∈ padNat w m → isDigitChar c = true := by
    intro m c hc
    unfold padNat at hc
    rcases List.mem_append.mp hc with hc | hc
    · rw [List.eq_of_mem_replicate hc]; decide
    · exact natDigitsAux_chars (m + 1) m [] (by simp) c hc
  intro c hc
  unfold padInt at hc
  split at hc
  · rcases List.mem_cons.mp hc with he | hin
    · exact Or.inr he
    · exact Or.inl (hp _ c hin)
  · exact Or.inl (hp _ c hc)

/-- Every formatted date consists of digits and minus signs. -/
lemma fmtDate_chars (d : CivilDate) :
    ∀ c ∈ (fmtDate d).data, isDigitChar c = true ∨ c = '-' := by
  rcases d with ⟨y, m, dd⟩
  intro c hc
  unfold fmtDate at hc
  have hdata : (padInt 4 y ++ '-' :: padInt 2 m ++ '-' :: padInt 2 dd).asString.data =
      padInt 4 y ++ '-' :: padInt 2 m ++ '-' :: padInt 2 dd := rfl
  rw [hdata] at hc
  simp only [List.mem_append, List.mem_cons] at hc
  rcases hc with (hc | hc | hc) | (hc | hc)
  · exact padInt_chars 4 y c hc
  · exact Or.inr hc
  · exact padInt_chars 2 m c hc
  · exact Or.inr hc
  · exact padInt_chars 2 dd c hc

/-- Every successful `normalizeTime` output consists of digits and minus
signs (it is a formatted date). -/
lemma normalizeTime_ok_chars (now : Int) (s out : String)
    (h : normalizeTime now s = .ok out) :
    ∀ c ∈ out.data, isDigitChar c = true ∨ c = '-' := by
  unfold normalizeTime at h
  split at h
  · cases h; exact fmtDate_chars _
  · split at h
    · rcases hsp : goSplitSp s.data with _ | ⟨q, rest⟩
      · rw [hsp] at h; cases h
      · rw [hsp] at h
        dsimp only at h
        rcases hq : goParseInt64 q with _ | n
        · rw [hq] at h; cases h
        · rw [hq] at h
          dsimp only at h
          rcases rest with _ | ⟨u, rest2⟩
          · cases h
          · dsimp only at h
            split at h
            · cases h; exact fmtDate_chars _
            · split at h
              · cases h; exact fmtDate_chars _
              · split at h
                · cases h; exact fmtDate_chars _
                · cases h
    · rcases hp : parseMonthDate s.data with _ | d
      · rw [hp] at h; cases h
      · rw [hp] at h; cases h; exact fmtDate_chars _

/-- `normalizeTime` never panics: when the relative branch parses its first
space-token as an integer, a second token necessarily exists (the input
contains the letters of `"ago"`, so a pure number cannot be the whole
input). -/
lemma normalizeTime_no_panic (now : Int) (s : String) :
    ∀ p, normalizeTime now s ≠ .error (.panic p) := by
  intro p h
  unfold normalizeTime at h
  split at h
  · cases h
  · split at h
    · rename_i hago
      rcases hsp : goSplitSp s.data with _ | ⟨q, rest⟩
      · exact goSplitSp_ne_nil s.data hsp
      · rw [hsp] at h
        dsimp only at h
        rcases hq : goParseInt64 q with _ | n
        · rw [hq] at h; cases h
        · rw [hq] at h
          dsimp only at h
          rcases rest with _ | ⟨u, rest2⟩
          · have hsq : s.data = q := goSplitSp_singleton s.data q hsp
            have hmem : 'a' ∈ q := hsq ▸ containsList_ago_mem s.data hago
            rcases goParseInt64_chars q n hq 'a' hmem with hd | hd | hd <;> cases hd
          · dsimp only at h
            split at h
            · cases h
            · split at h
              · cases h
              · split at h
                · cases h
                · cases h
    · split at h
      · cases h
      · cases h

/-- Go's case-folding character match always fails between an upper-case
letter and a character below code 64 (a digit or a minus sign): they are
unequal, and the folded candidate stays below the lower-case range. -/
lemma charMatch_small (m c : Char) (hm1 : 97 ≤ m.toNat ||| 32)
    (hm2 : 65 ≤ m.toNat) (hc : c.toNat < 64) : charMatch m c = false := by
  unfold charMatch
  have hne : ¬ m = c := by
    intro he
    rw [he] at hm2
    omega
  have hlor : c.toNat ||| 32 < 64 :=
    Nat.or_lt_two_pow (n := 6) hc (by norm_num)
  simp only [Bool.or_eq_false_iff, decide_eq_false hne]
  refine ⟨trivial, ?_⟩
  simp only [Bool.and_eq_false_iff]
  left
  left
  simp only [decide_eq_false_iff_not]
  omega

/-- Matching any month name against input starting below code 64 fails. -/
lemma matchName_cons_small (m₀ : Char) (ms : List Char) (c : Char)
    (rest : List Char) (hm1 : 97 ≤ m₀.toNat ||| 32) (hm2 : 65 ≤ m₀.toNat)
    (hc : c.toNat < 64) : matchName (m₀ :: ms) (c :: rest) = none := by
  unfold matchName
  rw [charMatch_small m₀ c hm1 hm2 hc]
  rfl

/-- The month-name lookup fails on input starting below code 64. -/
lemma lookupMonth_small (c : Char) (rest : List Char) (hc : c.toNat < 64) :
    lookupMonth (c :: rest) = none := by
  have hJ : matchName "Jan".data (c :: rest) = none :=
    matchName_cons_small _ _ c rest (by decide) (by decide) hc
  have hF : matchName "Feb".data (c :: rest) = none :=
    matchName_cons_small _ _ c rest (by decide) (by decide) hc
  have hMr : matchName "Mar".data (c :: rest) = none :=
    matchName_cons_small _ _ c rest (by decide) (by decide) hc
  have hAp : matchName "Apr".data (c :: rest) = none :=
    matchName_cons_small _ _ c rest (by decide) (by decide) hc
  have hMy : matchName "May".data (c :: rest) = none :=
    matchName_cons_small _ _ c rest (by decide) (by decide) hc
  have hJn : matchName "Jun".data (c :: rest) = none :=
    matchName_cons_small _ _ c rest (by decide) (by decide) hc
  have hJl : matchName "Jul".data (c :: rest) = none :=
    matchName_cons_small _ _ c rest (by decide) (by decide) hc
  have hAu : matchName "Aug".data (c :: rest) = none :=
    matchName_cons_small _ _ c rest (by decide) (by decide) hc
  have hSe : matchName "Sep".data (c :: rest) = none :=
    matchName_cons_small _ _ c rest (by decide) (by decide) hc
  have hOc : matchName "Oct".data (c :: rest) = none :=
    matchName_cons_small _ _ c rest (by decide) (by decide) hc
  have hNo : matchName "Nov".data (c :: rest) = none :=
    matchName_cons_small _ _ c rest (by decide) (by decide) hc
  have hDe : matchName "Dec".data (c :: rest) = none :=
    matchName_cons_small _ _ c rest (by decide) (by decide) hc
  unfold lookupMonth monthTable shortMonthNames
  simp only [List.map, List.enum, List.enumFrom, lookupIn,
    hJ, hF, hMr, hAp, hMy, hJn, hJl, hAu, hSe, hOc, hNo, hDe]

/-- The wrap is the identity on the representable signed 64-bit range. -/
lemma int64Wrap_eq_self (x : Int) (h1 : -(2 ^ 63) ≤ x) (h2 : x < 2 ^ 63) :
    int64Wrap x = x := by
  unfold int64Wrap
  rw [Int.emod_eq_of_lt (by omega) (by omega)]
  omega

/-- **C4**, counterexample companion is `c4_ago_substring`; this is the
amended contract of `normalizeTime`: `"today"` yields the current date;
otherwise any input **containing the substring** `"ago"` (not only the
`"<N> <unit>(s) ago"` phrase shape) enters the relative branch, whose first
space-token must parse as a signed 64-bit integer (fatal error otherwise),
whose second token minus one trailing `s` selects the unit, and any other
unit is a fatal error; inputs without `"ago"` are parsed as absolute
`"Jan 2, 2006"` dates or fail fatally; no call panics (the second token
always exists when the first parses); and every successful result is a date
rendered through the `2006-01-02` layout, digits and dashes only.
The relative subtraction is exact only within the program's integer limits:
the `hour` unit yields the current instant plus the **wrapped** `int64`
product `-N * time.Hour` — equal to now minus `N` wall-clock hours exactly
when `|N| ≤ 2562047`, and a wrapped-around instant beyond that — while the
`day` and `week` units always succeed with some rendered date and subtract
exactly `N` (resp. `7N`) calendar days within the envelope `|N| ≤ 2^40`
(beyond which Go's internal arithmetic wraps). -/
theorem c4_normalizeTime_contract (now : Int) (s : String) :
    (s = "today" →
      normalizeTime now s = .ok (fmtDate (civilFromDays (dayOfNs now)))) ∧
    (s ≠ "today" → containsList "ago".data s.data = true →
      ∀ q rest, goSplitSp s.data = q :: rest →
        (goParseInt64 q = none → normalizeTime now s = .error .badQuantity) ∧
        (∀ n : Int, goParseInt64 q = some n → ∀ u rest2, rest = u :: rest2 →
          (trimOneS u = "hour".data →
            normalizeTime now s = .ok (fmtDate (civilFromDays
              (dayOfNs (now + int64Wrap (-(n * 3600000000000)))))) ∧
            (n.natAbs ≤ 2562047 →
              normalizeTime now s = .ok (fmtDate (civilFromDays
                (dayOfNs (now - n * 3600000000000)))))) ∧
          (trimOneS u = "day".data →
            (∃ d, normalizeTime now s = .ok (fmtDate d)) ∧
            (n.natAbs ≤ 2 ^ 40 →
              normalizeTime now s =
                .ok (fmtDate (civilFromDays (dayOfNs now - n))))) ∧
          (trimOneS u = "week".data →
            (∃ d, normalizeTime now s = .ok (fmtDate d)) ∧
            (n.natAbs ≤ 2 ^ 40 →
              normalizeTime now s =
                .ok (fmtDate (civilFromDays (dayOfNs now - 7 * n))))) ∧
          (trimOneS u ≠ "hour".data → trimOneS u ≠ "day".data →
            trimOneS u ≠ "week".data →
            normalizeTime now s = .error .unknownUnit))) ∧
    (s ≠ "today" → containsList "ago".data s.data = false →
      (∀ d, parseMonthDate s.data = some d →
        normalizeTime now s = .ok (fmtDate d)) ∧
      (parseMonthDate s.data = none →
        normalizeTime now s = .error .unparseableDate)) ∧
    (∀ p, normalizeTime now s ≠ .error (.panic p)) ∧
    (∀ out, normalizeTime now s = .ok out →
      out.data.all (fun c => isDigitChar c || c = '-') = true) := by
  refine ⟨?_, ?_, ?_, normalizeTime_no_panic now s, ?_⟩
  · intro hs
    unfold normalizeTime
    rw [if_pos hs]
  · intro hs hago q rest hsp
    unfold normalizeTime
    rw [if_neg hs, if_pos hago, hsp]
    dsimp only
    constructor
    · intro hq
      rw [hq]
    · intro n hq u rest2 hrest
      rw [hq, hrest]
      dsimp only
      have hdh : trimOneS u = "day".data → trimOneS u ≠ "hour".data := by
        intro h1 h2; rw [h1] at h2; exact absurd h2 (by decide)
      have hwh : trimOneS u = "week".data → trimOneS u ≠ "hour".data := by
        intro h1 h2; rw [h1] at h2; exact absurd h2 (by decide)
      have hwd : trimOneS u = "week".data → trimOneS u ≠ "day".data := by
        intro h1 h2; rw [h1] at h2; exact absurd h2 (by decide)
      refine ⟨?_, ?_, ?_, ?_⟩
      · intro hu
        rw [if_pos hu]
        refine ⟨rfl, ?_⟩
        intro hn
        have hb : -(2562047 : Int) ≤ n ∧ n ≤ 2562047 := by omega
        have hw : int64Wrap (-(n * 3600000000000)) = -(n * 3600000000000) :=
          int64Wrap_eq_self _ (by omega) (by omega)
        rw [hw, ← sub_eq_add_neg]
      · intro hu
        rw [if_neg (hdh hu), if_pos hu]
        refine ⟨⟨_, rfl⟩, ?_⟩
        intro hn
        have hb : -(2 ^ 40 : Int) ≤ n ∧ n ≤ 2 ^ 40 := by omega
        have hw : int64Wrap (-n) = -n := int64Wrap_eq_self _ (by omega) (by omega)
        rw [hw, ← sub_eq_add_neg]
      · intro hu
        rw [if_neg (hwh hu), if_neg (hwd hu), if_pos hu]
        refine ⟨⟨_, rfl⟩, ?_⟩
        intro hn
        have hb : -(2 ^ 40 : Int) ≤ n ∧ n ≤ 2 ^ 40 := by omega
        have hw : int64Wrap (-(7 * n)) = -(7 * n) :=
          int64Wrap_eq_self _ (by omega) (by omega)
        rw [hw, ← sub_eq_add_neg]
      · intro h1 h2 h3
        rw [if_neg h1, if_neg h2, if_neg h3]
  · intro hs hago
    unfold normalizeTime
    rw [if_neg hs, if_neg (by rw [hago]; exact Bool.false_ne_true)]
    constructor
    · intro d hp; rw [hp]
    · intro hp; rw [hp]
  · intro out hout
    rw [List.all_eq_true]
    intro c hc
    rcases normalizeTime_ok_chars now s out hout c hc with h | h <;> simp [h]

/-- Witness for `c4_normalizeTime_contract`: the relative hour branch at the
epoch with its hypotheses discharged concretely — once inside the exact
envelope (`2` hours), and once at the reviewer-visible overflow quantity
`3000000` hours, whose wrapped `int64` duration lands the result in the far
future instead of the past. -/
theorem c4_normalizeTime_contract_witness :
    normalizeTime 0 "2 hours ago" = .ok "1969-12-31" ∧
    normalizeTime 0 "3000000 hours ago" = .ok (fmtDate (civilFromDays
      (dayOfNs (0 + int64Wrap (-(3000000 * 3600000000000)))))) := by
  constructor
  · have h := (c4_normalizeTime_contract 0 "2 hours ago").2.1 (by decide) (by decide)
      "2".data ["hours".data, "ago".data] (by decide)
    have h2 := ((h.2 2 (by decide) "hours".data ["ago".data] rfl).1 (by decide)).2
      (by decide)
    rw [h2]
    rfl
  · have h := (c4_normalizeTime_contract 0 "3000000 hours ago").2.1 (by decide)
      (by decide) "3000000".data ["hours".data, "ago".data] (by decide)
    exact ((h.2 3000000 (by decide) "hours".data ["ago".data] rfl).1 (by decide)).1

/-! ## Claim C5, amended -/

/-- **C5**, amended: a canonical `normalizeTime` output fed back in is
**not** returned unchanged — it is rejected.  The canonical string consists
of digits and dashes, so it is neither `"today"` nor contains `"ago"`, and
it falls to the absolute-date branch, whose `"Jan 2, 2006"` layout rejects
any input not starting with a month letter; the re-parse therefore fails
with the unparseable-date error (at any current instant on either side). -/
theorem c5_canonical_not_reparsed (now1 now2 : Int) (s out : String)
    (h : normalizeTime now1 s = .ok out) :
    normalizeTime now2 out = .error .unparseableDate := by
  have hchars := normalizeTime_ok_chars now1 s out h
  have hne : ¬ out = "today" := by
    intro he
    have hm : 't' ∈ out.data := by rw [he]; decide
    rcases hchars 't' hm with hd | hd <;> revert hd <;> decide
  have hnago : ¬ containsList ['a', 'g', 'o'] out.data = true := by
    intro hh
    have hmem := containsList_ago_mem out.data hh
    rcases hchars 'a' hmem with hd | hd <;> revert hd <;> decide
  have hparse : parseMonthDate out.data = none := by
    rcases hd : out.data with _ | ⟨c, rest⟩
    · rfl
    · have hc := hchars c (by rw [hd]; exact List.mem_cons_self c rest)
      have hsmall : c.toNat < 64 := by
        rcases hc with hc | hc
        · unfold isDigitChar at hc
          rcases Bool.and_eq_true_iff.mp hc with ⟨-, h2⟩
          simp only [decide_eq_true_eq] at h2
          omega
        · rw [hc]; decide
      unfold parseMonthDate
      rw [lookupMonth_small c rest hsmall]
  unfold normalizeTime
  rw [if_neg hne, if_neg hnago, hparse]

/-- Witness for `c5_canonical_not_reparsed` at the concrete canonical
output of `"today"` at the epoch. -/
theorem c5_canonical_not_reparsed_witness :
    normalizeTime 0 "1970-01-01" = .error .unparseableDate :=
  c5_canonical_not_reparsed 0 0 "today" "1970-01-01" (by rfl)

/-! ## Claim C9 -/

/-- A verified prefix splits the list. -/
lemma startsWith_exists : ∀ (p cs : List Char), startsWithList p cs = true →
    ∃ t, cs = p ++ t := by
  intro p
  induction p with
  | nil => intro cs _; exact ⟨cs, rfl⟩
  | cons x ps ih =>
      intro cs h
      rcases cs with _ | ⟨c, cs'⟩
      · cases h
      · unfold startsWithList at h
        rcases Bool.and_eq_true_iff.mp h with ⟨he, hrest⟩
        simp only [decide_eq_true_eq] at he
        obtain ⟨t, ht⟩ := ih cs' hrest
        exact ⟨t, by rw [he, ht]; rfl⟩

/-- A list starts with itself. -/
lemma startsWith_self_append : ∀ (p u : List Char),
    startsWithList p (p ++ u) = true := by
  intro p
  induction p with
  | nil => intro u; rfl
  | cons x ps ih => intro u; simp [startsWithList, ih u]

/-- A verified suffix splits the string. -/
lemma hasSuffix_exists (p s : String) (h : goHasSuffix p s = true) :
    ∃ r, s.data = r ++ p.data := by
  unfold goHasSuffix at h
  obtain ⟨w, hw⟩ := startsWith_exists _ _ h
  refine ⟨w.reverse, ?_⟩
  rw [← List.reverse_reverse s.data, hw]
  simp

/-- The host `net/url` extracts from a double-scheme URL is `https:` (or the
parse is rejected outright for a control byte) — never a provider host. -/
lemma goURLHost_double (r : String) (v : List Char)
    (hr : r.data = "https://https://".data ++ v) :
    goURLHost r = none ∨ goURLHost r = some "https:" := by
  by_cases hctl : (r.data.any (fun c => c.toNat < 0x20 || c.toNat = 0x7f)) = true
  · left
    unfold goURLHost
    rw [if_pos hctl]
  · right
    unfold goURLHost
    rw [if_neg hctl, hr]
    rfl

/-- **C9** (confirmed): for every repository URL that already begins with
`https://`, `normalizeRepoURL` unconditionally prepends another `https://`
(after possibly stripping a `.git` suffix), producing a doubled scheme;
consequently `identifyGitHost` parses the host of the normalized URL as
`https:` (or rejects it), classifying it as an unknown host, and
`fetchDescription` returns the empty string whatever the provider
extractors would return. -/
theorem c9_scheme_doubling :
    ∀ (gh gl cb sh : String → String) (s : String),
      goHasPrefix "https://" s = true →
        startsWithList "https://https://".data (normalizeRepoURL s).data = true ∧
        identifyGitHost (normalizeRepoURL s) = .unknown ∧
        fetchDescription gh gl cb sh s = "" := by
  intro gh gl cb sh s h
  obtain ⟨t, ht⟩ := startsWith_exists _ _ h
  have hngit : goHasPrefix "git@" s = false := by
    unfold goHasPrefix
    rw [ht]
    rfl
  have hresult : ∃ v, (normalizeRepoURL s).data =
      "https://".data ++ ("https://".data ++ v) := by
    unfold normalizeRepoURL
    rw [if_neg (by simp [hngit])]
    unfold normalizeRepoURL.normalizeRepoTail
    by_cases hsuf : goHasSuffix ".git" s = true
    · rw [if_pos hsuf]
      by_cases hl : 4 ≤ t.length
      · refine ⟨t.take (t.length - 4), ?_⟩
        rw [String.data_append]
        have h1 : ((s.data.take (s.data.length - 4)).asString).data
            = s.data.take (s.data.length - 4) := rfl
        rw [h1, ht]
        have hlen : ("https://".data ++ t).length - 4 =
            "https://".data.length + (t.length - 4) := by
          simp only [List.length_append]
          have : "https://".data.length = 8 := rfl
          omega
        rw [hlen, List.take_append_eq_append_take]
        have h2 : ("https://".data).take
            ("https://".data.length + (t.length - 4)) = "https://".data :=
          List.take_of_length_le (Nat.le_add_right _ _)
        have h3 : "https://".data.length + (t.length - 4) -
            "https://".data.length = t.length - 4 := by omega
        rw [h2, h3]
      · exfalso
        obtain ⟨r', hr'⟩ := hasSuffix_exists ".git" s hsuf
        have heq : "https://".data ++ t = r' ++ ".git".data := by
          rw [← ht, ← hr']
        have hlen : r'.length = 4 + t.length := by
          have hlen0 := congrArg List.length heq
          simp [List.length_append] at hlen0
          omega
        have hget := congrArg (fun l => l[r'.length]?) heq
        simp only at hget
        have hlt : r'.length < "https://".data.length := by
          have h8 : "https://".data.length = 8 := rfl
          omega
        rw [List.getElem?_append, List.getElem?_append, if_pos hlt,
          if_neg (lt_irrefl _), Nat.sub_self] at hget
        rw [hlen] at hget
        set k := t.length with hk
        have hk3 : k ≤ 3 := by omega
        interval_cases k <;> revert hget <;> decide
    · rw [if_neg hsuf]
      refine ⟨t, ?_⟩
      rw [String.data_append, ht]
  obtain ⟨v, hv⟩ := hresult
  have hv' : (normalizeRepoURL s).data = "https://https://".data ++ v := by
    rw [hv]
    rfl
  have hid : identifyGitHost (normalizeRepoURL s) = .unknown := by
    unfold identifyGitHost
    rcases goURLHost_double (normalizeRepoURL s) v hv' with hh | hh <;> rw [hh]
    rfl
  refine ⟨?_, hid, ?_⟩
  · rw [hv']
    exact startsWith_self_append _ _
  · unfold fetchDescription
    have hsne : ¬ s = "" := by
      intro he
      subst he
      simp at ht
    rw [if_neg hsne]
    dsimp only
    rw [hid]

/-- Witness for `c9_scheme_doubling` at a concrete GitHub URL. -/
theorem c9_scheme_doubling_witness :
    identifyGitHost (normalizeRepoURL "https://github.com/user/repo") = .unknown ∧
    fetchDescription (fun _ => "gh") (fun _ => "gl") (fun _ => "cb") (fun _ => "sh")
      "https://github.com/user/repo" = "" := by
  obtain ⟨_, h2, h3⟩ :=
    c9_scheme_doubling (fun _ => "gh") (fun _ => "gl") (fun _ => "cb") (fun _ => "sh")
      "https://github.com/user/repo" (by decide)
  exact ⟨h2, h3⟩

end Pkggodev
